import Mathlib

/-!
Shallow embedding of afkmc2.py: four k-means seeding procedures
(kmpp, kmc2, afkmc2, afkmc2_mem).

Modelling conventions:
* Points are lists of rationals; the dataset is a list of points.
* np.linalg.norm(x - y) ** 2 is the sum of squared coordinate
  differences, computed exactly in the rationals.
* Randomness: the procedures consume an infinite stream of
  uniform [0,1) draws (a function from natural numbers to rationals);
  each sampling primitive consumes one draw and the current draw
  counter is threaded through the computation.  np.random.choice(n)
  maps a draw u to the index floor(u * n); np.random.choice(n, p=q)
  validates q (nonnegative entries summing to one, as numpy does,
  raising otherwise) and then inverts the cumulative distribution.
* Failure (a raised exception: IndexError from writing row 0 of a
  zero-row array when k = 0, ValueError from choice on an empty range
  or an invalid probability vector, IndexError from indexing an empty
  np.where result) is modelled by Option none.
* IEEE corner of the acceptance ratio: when the denominator is zero,
  numpy yields inf (numerator positive, the comparison with u is true)
  or nan (numerator zero, the comparison is false) without raising;
  divGTu reproduces exactly that outcome.
* The np.empty memo buffer of afkmc2_mem is uninitialized memory, so
  its initial contents are an explicit parameter of the embedding.
-/

namespace AFK

/-- Squared Euclidean distance between two points, exact in ℚ. -/
def dist2 (x y : List ℚ) : ℚ := (List.zipWith (fun a b => (a - b) ^ 2) x y).sum

/-- Minimum of a list of rationals (python min; never applied to [] by the
procedures, the default 0 is unreachable there). -/
def listMin : List ℚ → ℚ
  | [] => 0
  | h :: t => t.foldl min h

/-- Minimum squared distance from a point to the centers chosen so far:
min([norm(p - centers[j]) ** 2 for j in range(i)]). -/
def minDist2 (p : List ℚ) (cs : List (List ℚ)) : ℚ :=
  listMin (cs.map (fun c => dist2 p c))

/-- Running partial sums with an accumulator; cumsumFrom a l is the list of
a + (sum of the first i+1 elements of l). -/
def cumsumFrom (a : ℚ) : List ℚ → List ℚ
  | [] => []
  | h :: t => (a + h) :: cumsumFrom (a + h) t

/-- np.cumsum on a list of rationals. -/
def cumsum (l : List ℚ) : List ℚ := cumsumFrom 0 l

/-- Index of the first entry c with r ≤ c, the embedding of
np.where(cumprobs >= r)[0][0]. -/
def firstIdxGE (r : ℚ) : List ℚ → Option ℕ
  | [] => none
  | c :: t => if r ≤ c then some 0 else (firstIdxGE r t).map (· + 1)

/-- Index of the first entry c with u < c, the embedding of
cdf.searchsorted(u, side=right) used by np.random.choice with weights. -/
def firstIdxGT (u : ℚ) : List ℚ → Option ℕ
  | [] => none
  | c :: t => if u < c then some 0 else (firstIdxGT u t).map (· + 1)

/-- np.random.choice(n) from one uniform [0,1) draw u: floor (u * n),
clamped into range. -/
def uniformIdx (n : ℕ) (u : ℚ) : ℕ := min (Int.toNat ⌊u * (n : ℚ)⌋) (n - 1)

/-- np.random.choice(n, p=q) from one uniform draw: numpy first validates
that q is a probability vector (entries nonnegative and summing to one,
raising ValueError otherwise, modelled by none), then inverse-CDF samples. -/
def choiceP (q : List ℚ) (u : ℚ) : Option ℕ :=
  if q.sum = 1 ∧ ∀ v ∈ q, 0 ≤ v then firstIdxGT u (cumsum q) else none

/-- The comparison num / den > u as numpy evaluates it on IEEE floats with
num, den ≥ 0: a zero denominator gives inf (num > 0, comparison true) or
nan (num = 0, comparison false) instead of raising. -/
def divGTu (num den u : ℚ) : Bool :=
  if den = 0 then decide (0 < num) else decide (u < num / den)

/-! ## kmpp -/

/-- One weighted selection of kmpp: probs = D2 / sum(D2),
ind = np.where(probs.cumsum() >= r)[0][0].  When sum(D2) = 0 the numpy
division yields an all-nan probs, every comparison with r is false, the
where result is empty and indexing it raises: modelled by none. -/
def kmppPick (D2 : List ℚ) (r : ℚ) : Option ℕ :=
  if D2.sum = 0 then none
  else firstIdxGE r (cumsum (D2.map (fun v => v / D2.sum)))

/-- The k-1 selection rounds of kmpp, threading the draw counter t. -/
def kmppIter (X : List (List ℚ)) (ρ : ℕ → ℚ) : ℕ → List (List ℚ) → ℕ → Option (List (List ℚ))
  | 0, cs, _ => some cs
  | fuel + 1, cs, t =>
    match kmppPick (X.map (fun p => minDist2 p cs)) (ρ t) with
    | none => none
    | some ind => kmppIter X ρ fuel (cs ++ [X.getD ind []]) (t + 1)

/-- kmpp(X, k): k-means++ seeding.  The guard models the ValueError of
np.random.choice(0) on an empty dataset and the IndexError of writing
centers[0, :] when k = 0. -/
def kmpp (X : List (List ℚ)) (k : ℕ) (ρ : ℕ → ℚ) : Option (List (List ℚ)) :=
  if X.length = 0 ∨ k = 0 then none
  else kmppIter X ρ (k - 1) [X.getD (uniformIdx X.length (ρ 0)) []] 1

/-! ## kmc2 -/

/-- The inner Markov chain of kmc2: s remaining steps from state
(x, dx2, t); each step draws a uniform index y, computes dy2 and moves
exactly when dy2 / dx2 > u for a fresh uniform draw u. -/
def kmcChain (X : List (List ℚ)) (cs : List (List ℚ)) (ρ : ℕ → ℚ) :
    ℕ → ℕ × ℚ × ℕ → ℕ × ℚ × ℕ
  | 0, st => st
  | s + 1, (x, dx2, t) =>
    kmcChain X cs ρ s
      (if divGTu (minDist2 (X.getD (uniformIdx X.length (ρ t)) []) cs) dx2 (ρ (t + 1))
       then (uniformIdx X.length (ρ t),
             minDist2 (X.getD (uniformIdx X.length (ρ t)) []) cs, t + 2)
       else (x, dx2, t + 2))

/-- The k-1 chain rounds of kmc2: each round seeds the chain at a uniform
index, runs m-1 steps and appends the final candidate as the next center. -/
def kmc2Iter (X : List (List ℚ)) (ρ : ℕ → ℚ) (m : ℕ) :
    ℕ → List (List ℚ) → ℕ → List (List ℚ)
  | 0, cs, _ => cs
  | fuel + 1, cs, t =>
    kmc2Iter X ρ m fuel
      (cs ++ [X.getD (kmcChain X cs ρ (m - 1)
        (uniformIdx X.length (ρ t),
         minDist2 (X.getD (uniformIdx X.length (ρ t)) []) cs, t + 1)).1 []])
      (kmcChain X cs ρ (m - 1)
        (uniformIdx X.length (ρ t),
         minDist2 (X.getD (uniformIdx X.length (ρ t)) []) cs, t + 1)).2.2

/-- kmc2(X, k, m): uniform-proposal MCMC seeding.  Performs no input
validation beyond the unavoidable failures modelled in the guard. -/
def kmc2 (X : List (List ℚ)) (k m : ℕ) (ρ : ℕ → ℚ) : Option (List (List ℚ)) :=
  if X.length = 0 ∨ k = 0 then none
  else some (kmc2Iter X ρ m (k - 1) [X.getD (uniformIdx X.length (ρ 0)) []] 1)

/-! ## afkmc2 -/

/-- The proposal distribution formula q = d2 / (2 * sum(d2)) + 1 / (2 n)
applied to a precomputed list d2 of squared distances. -/
def qOf (d2 : List ℚ) (n : ℕ) : List ℚ :=
  d2.map (fun v => v / (2 * d2.sum) + 1 / (2 * (n : ℚ)))

/-- The assumption-free proposal distribution of afkmc2, built from the
squared distances of every point to the first center. -/
def propQ (X : List (List ℚ)) (c0 : List ℚ) : List ℚ :=
  qOf (X.map (fun x => dist2 x c0)) X.length

/-- The inner Markov chain of afkmc2: each step draws y from q, computes
dy2, and moves exactly when dy2 * q[x] / (dx2 * q[y]) > u. -/
def afkChain (X : List (List ℚ)) (q : List ℚ) (cs : List (List ℚ)) (ρ : ℕ → ℚ) :
    ℕ → ℕ × ℚ × ℕ → Option (ℕ × ℚ × ℕ)
  | 0, st => some st
  | s + 1, (x, dx2, t) =>
    match choiceP q (ρ t) with
    | none => none
    | some y =>
      afkChain X q cs ρ s
        (if divGTu (minDist2 (X.getD y []) cs * q.getD x 0) (dx2 * q.getD y 0) (ρ (t + 1))
         then (y, minDist2 (X.getD y []) cs, t + 2)
         else (x, dx2, t + 2))

/-- The k-1 chain rounds of afkmc2: each round seeds the chain from q,
runs m-1 steps and appends the final candidate as the next center. -/
def afkIter (X : List (List ℚ)) (q : List ℚ) (ρ : ℕ → ℚ) (m : ℕ) :
    ℕ → List (List ℚ) → ℕ → Option (List (List ℚ))
  | 0, cs, _ => some cs
  | fuel + 1, cs, t =>
    match choiceP q (ρ t) with
    | none => none
    | some x =>
      match afkChain X q cs ρ (m - 1) (x, minDist2 (X.getD x []) cs, t + 1) with
      | none => none
      | some st => afkIter X q ρ m fuel (cs ++ [X.getD st.1 []]) st.2.2

/-- afkmc2(X, k, m): assumption-free MCMC seeding with the mixture
proposal distribution. -/
def afkmc2 (X : List (List ℚ)) (k m : ℕ) (ρ : ℕ → ℚ) : Option (List (List ℚ)) :=
  if X.length = 0 ∨ k = 0 then none
  else
    afkIter X (propQ X (X.getD (uniformIdx X.length (ρ 0)) [])) ρ m (k - 1)
      [X.getD (uniformIdx X.length (ρ 0)) []] 1

/-! ## afkmc2_mem -/

/-- The memo buffer d_store of afkmc2_mem, indexed by point and center. -/
def Store : Type := ℕ → ℕ → ℚ

/-- The inner function distance(i, j) of afkmc2_mem: if not d_store[i, j],
compute and cache; return d_store[i, j].  A cell equal to zero counts as
unset (python falsiness), so the buffer content decides the result. -/
def distanceM (X : List (List ℚ)) (cs : List (List ℚ)) (sto : Store) (i j : ℕ) :
    ℚ × Store :=
  if sto i j = 0 then
    (dist2 (X.getD i []) (cs.getD j []),
     fun a b => if a = i ∧ b = j then dist2 (X.getD i []) (cs.getD j []) else sto a b)
  else (sto i j, sto)

/-- One step of the comprehension [distance(x, j) for j in range(i)]:
evaluate distance with the current buffer, prepend the value (the list is
reversed at the end), keep the updated buffer. -/
def dmStep (X cs : List (List ℚ)) (x : ℕ) (acc : List ℚ × Store) (j : ℕ) :
    List ℚ × Store :=
  ((distanceM X cs acc.2 x j).1 :: acc.1, (distanceM X cs acc.2 x j).2)

/-- min([distance(x, j) for j in range(i)]): the comprehension evaluates
distance left to right, threading the buffer, then python min is taken. -/
def minDistM (X : List (List ℚ)) (cs : List (List ℚ)) (sto : Store) (x : ℕ) :
    ℚ × Store :=
  (listMin ((List.range cs.length).foldl (dmStep X cs x) ([], sto)).1.reverse,
   ((List.range cs.length).foldl (dmStep X cs x) ([], sto)).2)

/-- One step of the comprehension [distance(i, 0) for i in range(n)]. -/
def d2Step (X : List (List ℚ)) (c0 : List ℚ) (acc : List ℚ × Store) (i : ℕ) :
    List ℚ × Store :=
  ((distanceM X [c0] acc.2 i 0).1 :: acc.1, (distanceM X [c0] acc.2 i 0).2)

/-- d2 = [distance(i, 0) for i in range(n)], threading the buffer. -/
def d2M (X : List (List ℚ)) (c0 : List ℚ) (sto : Store) : List ℚ × Store :=
  (((List.range X.length).foldl (d2Step X c0) ([], sto)).1.reverse,
   ((List.range X.length).foldl (d2Step X c0) ([], sto)).2)

/-- The inner Markov chain of afkmc2_mem: as afkChain but with the distance
computation routed through the memo buffer. -/
def memChain (X : List (List ℚ)) (q : List ℚ) (cs : List (List ℚ)) (ρ : ℕ → ℚ) :
    ℕ → ℕ × ℚ × ℕ × Store → Option (ℕ × ℚ × ℕ × Store)
  | 0, st => some st
  | s + 1, (x, dx2, t, sto) =>
    match choiceP q (ρ t) with
    | none => none
    | some y =>
      memChain X q cs ρ s
        (if divGTu ((minDistM X cs sto y).1 * q.getD x 0) (dx2 * q.getD y 0) (ρ (t + 1))
         then (y, (minDistM X cs sto y).1, t + 2, (minDistM X cs sto y).2)
         else (x, dx2, t + 2, (minDistM X cs sto y).2))

/-- The k-1 chain rounds of afkmc2_mem, threading the memo buffer. -/
def memIter (X : List (List ℚ)) (q : List ℚ) (ρ : ℕ → ℚ) (m : ℕ) :
    ℕ → List (List ℚ) → ℕ → Store → Option (List (List ℚ))
  | 0, cs, _, _ => some cs
  | fuel + 1, cs, t, sto =>
    match choiceP q (ρ t) with
    | none => none
    | some x =>
      match memChain X q cs ρ (m - 1)
        (x, (minDistM X cs sto x).1, t + 1, (minDistM X cs sto x).2) with
      | none => none
      | some st => memIter X q ρ m fuel (cs ++ [X.getD st.1 []]) st.2.2.1 st.2.2.2

/-- afkmc2_mem(X, k, m): as afkmc2 but with memoized distances.  The numpy
buffer d_store = np.empty((n, k)) is uninitialized memory, so the initial
buffer g is a parameter of the model. -/
def afkmc2_mem (X : List (List ℚ)) (k m : ℕ) (ρ : ℕ → ℚ) (g : Store) :
    Option (List (List ℚ)) :=
  if X.length = 0 ∨ k = 0 then none
  else
    memIter X
      (qOf (d2M X (X.getD (uniformIdx X.length (ρ 0)) []) g).1 X.length)
      ρ m (k - 1) [X.getD (uniformIdx X.length (ρ 0)) []] 1
      (d2M X (X.getD (uniformIdx X.length (ρ 0)) []) g).2

/-! ## Basic lemmas -/

theorem dist2_cons (a b : ℚ) (x y : List ℚ) :
    dist2 (a :: x) (b :: y) = (a - b) ^ 2 + dist2 x y := by
  simp [dist2]

theorem dist2_nonneg (x y : List ℚ) : 0 ≤ dist2 x y := by
  induction x generalizing y with
  | nil => simp [dist2]
  | cons a x ih =>
    cases y with
    | nil => simp [dist2]
    | cons b y =>
      rw [dist2_cons]
      exact add_nonneg (sq_nonneg _) (ih y)

theorem dist2_eq_zero (x y : List ℚ) (hl : x.length = y.length)
    (h : dist2 x y = 0) : x = y := by
  induction x generalizing y with
  | nil => cases y with
    | nil => rfl
    | cons b y => simp at hl
  | cons a x ih =>
    cases y with
    | nil => simp at hl
    | cons b y =>
      rw [dist2_cons] at h
      have h1 : (a - b) ^ 2 = 0 := by
        nlinarith [sq_nonneg (a - b), dist2_nonneg x y]
      have h2 : dist2 x y = 0 := by nlinarith [sq_nonneg (a - b), dist2_nonneg x y]
      have ha : a = b := by
        have := pow_eq_zero_iff (n := 2) (by norm_num) |>.mp h1
        linarith [sub_eq_zero.mp this]
      simp at hl
      rw [ha, ih y hl h2]

theorem dist2_pos (x y : List ℚ) (hl : x.length = y.length) (hne : x ≠ y) :
    0 < dist2 x y := by
  rcases lt_or_eq_of_le (dist2_nonneg x y) with h | h
  · exact h
  · exact absurd (dist2_eq_zero x y hl h.symm) hne

theorem foldl_min_pos (t : List ℚ) (a : ℚ) (ha : 0 < a)
    (ht : ∀ v ∈ t, 0 < v) : 0 < t.foldl min a := by
  induction t generalizing a with
  | nil => simpa
  | cons b t ih =>
    simp only [List.foldl_cons]
    exact ih (min a b) (lt_min ha (ht b (by simp)))
      (fun v hv => ht v (by simp [hv]))

theorem foldl_min_nonneg (t : List ℚ) (a : ℚ) (ha : 0 ≤ a)
    (ht : ∀ v ∈ t, 0 ≤ v) : 0 ≤ t.foldl min a := by
  induction t generalizing a with
  | nil => simpa
  | cons b t ih =>
    simp only [List.foldl_cons]
    exact ih (min a b) (le_min ha (ht b (by simp)))
      (fun v hv => ht v (by simp [hv]))

theorem listMin_pos (l : List ℚ) (hne : l ≠ []) (h : ∀ v ∈ l, 0 < v) :
    0 < listMin l := by
  cases l with
  | nil => exact absurd rfl hne
  | cons a t =>
    exact foldl_min_pos t a (h a (by simp)) (fun v hv => h v (by simp [hv]))

theorem listMin_nonneg (l : List ℚ) (h : ∀ v ∈ l, 0 ≤ v) : 0 ≤ listMin l := by
  cases l with
  | nil => simp [listMin]
  | cons a t =>
    exact foldl_min_nonneg t a (h a (by simp)) (fun v hv => h v (by simp [hv]))

theorem minDist2_pos (p : List ℚ) (cs : List (List ℚ)) (hne : cs ≠ [])
    (h : ∀ c ∈ cs, 0 < dist2 p c) : 0 < minDist2 p cs := by
  apply listMin_pos
  · simpa using hne
  · intro v hv
    rcases List.mem_map.mp hv with ⟨c, hc, rfl⟩
    exact h c hc

theorem minDist2_nonneg (p : List ℚ) (cs : List (List ℚ)) : 0 ≤ minDist2 p cs := by
  apply listMin_nonneg
  intro v hv
  rcases List.mem_map.mp hv with ⟨c, _, rfl⟩
  exact dist2_nonneg p c

theorem sum_pos_of_mem (l : List ℚ) (x : ℚ) (hall : ∀ v ∈ l, 0 ≤ v)
    (hx : x ∈ l) (hxpos : 0 < x) : 0 < l.sum :=
  lt_of_lt_of_le hxpos (List.single_le_sum hall x hx)

theorem sum_map_affine (l : List ℚ) (c b : ℚ) :
    (l.map (fun v => v / c + b)).sum = l.sum / c + l.length * b := by
  induction l with
  | nil => simp
  | cons a t ih =>
    simp only [List.map_cons, List.sum_cons, List.length_cons, ih]
    push_cast
    ring

/-! ## Cumulative sums and index search -/

theorem cumsumFrom_length (a : ℚ) (l : List ℚ) :
    (cumsumFrom a l).length = l.length := by
  induction l generalizing a with
  | nil => rfl
  | cons h t ih => simp [cumsumFrom, ih]

theorem mem_cumsumFrom_sum (l : List ℚ) (a : ℚ) (hne : l ≠ []) :
    a + l.sum ∈ cumsumFrom a l := by
  induction l generalizing a with
  | nil => exact absurd rfl hne
  | cons h t ih =>
    cases t with
    | nil => simp [cumsumFrom]
    | cons h2 t2 =>
      have : a + (h :: h2 :: t2).sum = (a + h) + (h2 :: t2).sum := by
        simp; ring
      rw [cumsumFrom, this]
      exact List.mem_cons_of_mem _ (ih (a + h) (by simp))

theorem sum_mem_cumsum (l : List ℚ) (hne : l ≠ []) : l.sum ∈ cumsum l := by
  have := mem_cumsumFrom_sum l 0 hne
  simpa [cumsum] using this

theorem cumsum_length (l : List ℚ) : (cumsum l).length = l.length :=
  cumsumFrom_length 0 l

theorem firstIdxGE_some_of_mem (l : List ℚ) (r : ℚ) (h : ∃ c ∈ l, r ≤ c) :
    ∃ i, firstIdxGE r l = some i := by
  induction l with
  | nil => simp at h
  | cons c t ih =>
    by_cases hc : r ≤ c
    · exact ⟨0, by simp [firstIdxGE, hc]⟩
    · rcases h with ⟨v, hv, hrv⟩
      rcases List.mem_cons.mp hv with rfl | hv
      · exact absurd hrv hc
      · rcases ih ⟨v, hv, hrv⟩ with ⟨i, hi⟩
        exact ⟨i + 1, by simp [firstIdxGE, hc, hi]⟩

theorem firstIdxGE_lt (l : List ℚ) (r : ℚ) (i : ℕ)
    (h : firstIdxGE r l = some i) : i < l.length := by
  induction l generalizing i with
  | nil => simp [firstIdxGE] at h
  | cons c t ih =>
    by_cases hc : r ≤ c
    · rw [firstIdxGE, if_pos hc] at h
      injection h with h
      subst h
      simp
    · rw [firstIdxGE, if_neg hc] at h
      cases hfi : firstIdxGE r t with
      | none => rw [hfi] at h; simp at h
      | some j =>
        rw [hfi] at h
        simp at h
        have := ih j hfi
        simp only [List.length_cons]
        omega

theorem firstIdxGE_spec (l : List ℚ) (r : ℚ) (i : ℕ)
    (h : firstIdxGE r l = some i) :
    r ≤ l.getD i 0 ∧ ∀ j, j < i → l.getD j 0 < r := by
  induction l generalizing i with
  | nil => simp [firstIdxGE] at h
  | cons c t ih =>
    by_cases hc : r ≤ c
    · rw [firstIdxGE, if_pos hc] at h
      injection h with h
      subst h
      exact ⟨hc, by omega⟩
    · rw [firstIdxGE, if_neg hc] at h
      cases hfi : firstIdxGE r t with
      | none => rw [hfi] at h; simp at h
      | some j =>
        rw [hfi] at h
        simp at h
        subst h
        rcases ih j hfi with ⟨h1, h2⟩
        refine ⟨h1, ?_⟩
        intro j2 hj2
        cases j2 with
        | zero => simpa using lt_of_not_le hc
        | succ j3 => exact h2 j3 (by omega)

theorem firstIdxGT_some_of_mem (l : List ℚ) (u : ℚ) (h : ∃ c ∈ l, u < c) :
    ∃ i, firstIdxGT u l = some i := by
  induction l with
  | nil => simp at h
  | cons c t ih =>
    by_cases hc : u < c
    · exact ⟨0, by simp [firstIdxGT, hc]⟩
    · rcases h with ⟨v, hv, hrv⟩
      rcases List.mem_cons.mp hv with rfl | hv
      · exact absurd hrv hc
      · rcases ih ⟨v, hv, hrv⟩ with ⟨i, hi⟩
        exact ⟨i + 1, by simp [firstIdxGT, hc, hi]⟩

theorem firstIdxGT_lt (l : List ℚ) (u : ℚ) (i : ℕ)
    (h : firstIdxGT u l = some i) : i < l.length := by
  induction l generalizing i with
  | nil => simp [firstIdxGT] at h
  | cons c t ih =>
    by_cases hc : u < c
    · rw [firstIdxGT, if_pos hc] at h
      injection h with h
      subst h
      simp
    · rw [firstIdxGT, if_neg hc] at h
      cases hfi : firstIdxGT u t with
      | none => rw [hfi] at h; simp at h
      | some j =>
        rw [hfi] at h
        simp at h
        have := ih j hfi
        simp only [List.length_cons]
        omega

/-! ## getD helpers -/

theorem getD_mem {α : Type} (l : List α) (i : ℕ) (d : α) (h : i < l.length) :
    l.getD i d ∈ l := by
  induction l generalizing i with
  | nil => simp at h
  | cons a t ih =>
    cases i with
    | zero => simp
    | succ j =>
      simp only [List.getD_cons_succ]
      exact List.mem_cons_of_mem _ (ih j (by simpa using h))

theorem getD_map_of_lt {α β : Type} (l : List α) (f : α → β) (i : ℕ)
    (d : β) (d0 : α) (h : i < l.length) :
    (l.map f).getD i d = f (l.getD i d0) := by
  induction l generalizing i with
  | nil => simp at h
  | cons a t ih =>
    cases i with
    | zero => simp
    | succ j => simpa using ih j (by simpa using h)

theorem getD_append_left {α : Type} (l l2 : List α) (i : ℕ) (d : α)
    (h : i < l.length) : (l ++ l2).getD i d = l.getD i d := by
  induction l generalizing i with
  | nil => simp at h
  | cons a t ih =>
    cases i with
    | zero => simp
    | succ j => simpa using ih j (by simpa using h)

theorem range_map_getD {α β : Type} (l : List α) (f : α → β) (d : α) :
    (List.range l.length).map (fun j => f (l.getD j d)) = l.map f := by
  induction l with
  | nil => simp
  | cons a t ih =>
    rw [List.length_cons, List.range_succ_eq_map, List.map_cons, List.map_map]
    simp only [List.getD_cons_zero, Function.comp_def, List.getD_cons_succ]
    rw [List.map_cons, ih]

/-! ## The proposal distribution -/

theorem qOf_length (d2 : List ℚ) (n : ℕ) : (qOf d2 n).length = d2.length := by
  simp [qOf]

theorem qOf_sum (d2 : List ℚ) (n : ℕ) (hlen : d2.length = n)
    (hS : d2.sum ≠ 0) (hn : n ≠ 0) : (qOf d2 n).sum = 1 := by
  rw [qOf, sum_map_affine, hlen]
  have hn2 : (n : ℚ) ≠ 0 := Nat.cast_ne_zero.mpr hn
  field_simp
  ring

theorem qOf_pos (d2 : List ℚ) (n : ℕ) (hS : 0 < d2.sum) (hn : 0 < n)
    (hall : ∀ v ∈ d2, 0 ≤ v) : ∀ v ∈ qOf d2 n, 0 < v := by
  intro v hv
  rcases List.mem_map.mp hv with ⟨w, hw, rfl⟩
  have h1 : 0 ≤ w / (2 * d2.sum) := div_nonneg (hall w hw) (by linarith)
  have h2 : (0 : ℚ) < 1 / (2 * (n : ℚ)) := by
    have : (0 : ℚ) < (n : ℚ) := by exact_mod_cast hn
    positivity
  linarith

theorem d2_entries_nonneg (X : List (List ℚ)) (c0 : List ℚ) :
    ∀ v ∈ X.map (fun x => dist2 x c0), 0 ≤ v := by
  intro v hv
  rcases List.mem_map.mp hv with ⟨x, _, rfl⟩
  exact dist2_nonneg x c0

theorem propQ_sum (X : List (List ℚ)) (c0 : List ℚ)
    (hS : (X.map (fun x => dist2 x c0)).sum ≠ 0) : (propQ X c0).sum = 1 := by
  have hne : X ≠ [] := by
    intro h
    subst h
    simp at hS
  exact qOf_sum _ _ (by simp) hS (by simpa using hne)

theorem propQ_pos (X : List (List ℚ)) (c0 : List ℚ)
    (hS : 0 < (X.map (fun x => dist2 x c0)).sum) : ∀ v ∈ propQ X c0, 0 < v := by
  have hne : X ≠ [] := by
    intro h
    subst h
    simp at hS
  exact qOf_pos _ _ hS (by simp [List.length_pos_iff_ne_nil, hne])
    (d2_entries_nonneg X c0)

theorem propQ_length (X : List (List ℚ)) (c0 : List ℚ) :
    (propQ X c0).length = X.length := by
  simp [propQ, qOf]

/-! ## Sampling primitives -/

theorem uniformIdx_lt (n : ℕ) (u : ℚ) (hn : 0 < n) : uniformIdx n u < n := by
  have : uniformIdx n u ≤ n - 1 := min_le_right _ _
  omega

theorem choiceP_some (q : List ℚ) (u : ℚ) (hq1 : q.sum = 1)
    (hq0 : ∀ v ∈ q, 0 ≤ v) (hne : q ≠ []) (hu : u < 1) :
    ∃ y, choiceP q u = some y ∧ y < q.length := by
  have hmem : (1 : ℚ) ∈ cumsum q := hq1 ▸ sum_mem_cumsum q hne
  rcases firstIdxGT_some_of_mem (cumsum q) u ⟨1, hmem, hu⟩ with ⟨y, hy⟩
  refine ⟨y, ?_, ?_⟩
  · rw [choiceP, if_pos ⟨hq1, hq0⟩]
    exact hy
  · have := firstIdxGT_lt _ _ _ hy
    rwa [cumsum_length] at this

/-! ## Distinct points force positive distance sums -/

theorem exists_not_center (X : List (List ℚ)) (cs : List (List ℚ))
    (hcard : cs.length < X.toFinset.card) : ∃ x ∈ X, x ∉ cs := by
  by_contra h
  push_neg at h
  have hsub : X.toFinset ⊆ cs.toFinset := by
    intro a ha
    exact List.mem_toFinset.mpr (h a (List.mem_toFinset.mp ha))
  have h1 : X.toFinset.card ≤ cs.toFinset.card := Finset.card_le_card hsub
  have h2 : cs.toFinset.card ≤ cs.length := cs.toFinset_card_le
  omega

theorem sumD2_pos (X : List (List ℚ)) (cs : List (List ℚ)) (d : ℕ)
    (hd : ∀ p ∈ X, p.length = d) (hcs : ∀ c ∈ cs, c ∈ X) (hne : cs ≠ [])
    (x : List ℚ) (hx : x ∈ X) (hnx : x ∉ cs) :
    0 < (X.map (fun p => minDist2 p cs)).sum := by
  apply sum_pos_of_mem _ (minDist2 x cs)
  · intro v hv
    rcases List.mem_map.mp hv with ⟨p, _, rfl⟩
    exact minDist2_nonneg p cs
  · exact List.mem_map.mpr ⟨x, hx, rfl⟩
  · apply minDist2_pos x cs hne
    intro c hc
    apply dist2_pos
    · rw [hd x hx, hd c (hcs c hc)]
    · intro hxc
      exact hnx (hxc ▸ hc)

theorem exists_ne_of_two_le_card (X : List (List ℚ)) (c0 : List ℚ)
    (hcard : 2 ≤ X.toFinset.card) : ∃ x ∈ X, x ≠ c0 := by
  rcases exists_not_center X [c0] (by simpa using hcard) with ⟨x, hx, hnx⟩
  exact ⟨x, hx, by simpa using hnx⟩

theorem d2_sum_pos_of_ne (X : List (List ℚ)) (c0 : List ℚ) (d : ℕ)
    (hd : ∀ p ∈ X, p.length = d) (hc0 : c0 ∈ X)
    (x : List ℚ) (hx : x ∈ X) (hne : x ≠ c0) :
    0 < (X.map (fun p => dist2 p c0)).sum := by
  apply sum_pos_of_mem _ (dist2 x c0) (d2_entries_nonneg X c0)
    (List.mem_map.mpr ⟨x, hx, rfl⟩)
  apply dist2_pos
  · rw [hd x hx, hd c0 hc0]
  · exact hne

/-! ## kmpp succeeds on datasets with enough distinct points -/

theorem sum_map_div (l : List ℚ) (c : ℚ) :
    (l.map (fun v => v / c)).sum = l.sum / c := by
  induction l with
  | nil => simp
  | cons a t ih => simp [ih, add_div]

theorem kmppPick_some (D2 : List ℚ) (r : ℚ) (hS : 0 < D2.sum)
    (hr : r ≤ 1) : ∃ ind, kmppPick D2 r = some ind ∧ ind < D2.length := by
  have hnz : D2.sum ≠ 0 := ne_of_gt hS
  have hne : D2.map (fun v => v / D2.sum) ≠ [] := by
    intro h
    rw [List.map_eq_nil_iff] at h
    subst h
    simp at hS
  have hprobs : (D2.map (fun v => v / D2.sum)).sum = 1 := by
    rw [sum_map_div, div_self hnz]
  have hmem : (1 : ℚ) ∈ cumsum (D2.map (fun v => v / D2.sum)) :=
    hprobs ▸ sum_mem_cumsum _ hne
  rcases firstIdxGE_some_of_mem _ r ⟨1, hmem, hr⟩ with ⟨ind, hind⟩
  refine ⟨ind, ?_, ?_⟩
  · rw [kmppPick, if_neg hnz]
    exact hind
  · have := firstIdxGE_lt _ _ _ hind
    rwa [cumsum_length, List.length_map] at this

theorem kmppIter_ok (X : List (List ℚ)) (ρ : ℕ → ℚ) (d : ℕ)
    (hd : ∀ p ∈ X, p.length = d) (hρ : ∀ i, 0 ≤ ρ i ∧ ρ i < 1) :
    ∀ fuel cs t, cs ≠ [] → (∀ c ∈ cs, c ∈ X) →
      cs.length + fuel ≤ X.toFinset.card →
      ∃ out, kmppIter X ρ fuel cs t = some out ∧
        out.length = cs.length + fuel ∧ ∀ c ∈ out, c ∈ X := by
  intro fuel
  induction fuel with
  | zero =>
    intro cs t _ h2 _
    exact ⟨cs, rfl, by simp, h2⟩
  | succ f ih =>
    intro cs t hne hsub hcard
    obtain ⟨x, hx, hnx⟩ := exists_not_center X cs (by omega)
    have hsum : 0 < (X.map (fun p => minDist2 p cs)).sum :=
      sumD2_pos X cs d hd hsub hne x hx hnx
    obtain ⟨ind, hind, hlt⟩ :=
      kmppPick_some (X.map (fun p => minDist2 p cs)) (ρ t) hsum (le_of_lt (hρ t).2)
    rw [List.length_map] at hlt
    have hmemX : X.getD ind [] ∈ X := getD_mem X ind [] hlt
    obtain ⟨out, hout, hlen, hmem⟩ :=
      ih (cs ++ [X.getD ind []]) (t + 1) (by simp)
        (by
          intro c hc
          rcases List.mem_append.mp hc with h | h
          · exact hsub c h
          · simpa using (List.mem_singleton.mp h) ▸ hmemX)
        (by simp; omega)
    refine ⟨out, ?_, by simp at hlen; omega, hmem⟩
    simp only [kmppIter, hind]
    exact hout

/-! ## kmc2 always returns centers drawn from the dataset -/

theorem kmcChain_fst_lt (X cs : List (List ℚ)) (ρ : ℕ → ℚ)
    (hn : 0 < X.length) :
    ∀ s st, st.1 < X.length → (kmcChain X cs ρ s st).1 < X.length := by
  intro s
  induction s with
  | zero => intro st h; exact h
  | succ s2 ih =>
    intro st h
    obtain ⟨x, dx2, t⟩ := st
    rw [kmcChain]
    split
    · exact ih _ (uniformIdx_lt _ _ hn)
    · exact ih _ h

theorem kmc2Iter_ok (X : List (List ℚ)) (ρ : ℕ → ℚ) (m : ℕ)
    (hn : 0 < X.length) :
    ∀ fuel cs t, (∀ c ∈ cs, c ∈ X) →
      (kmc2Iter X ρ m fuel cs t).length = cs.length + fuel ∧
      ∀ c ∈ kmc2Iter X ρ m fuel cs t, c ∈ X := by
  intro fuel
  induction fuel with
  | zero =>
    intro cs t h
    exact ⟨by simp [kmc2Iter], by simpa [kmc2Iter] using h⟩
  | succ f ih =>
    intro cs t hsub
    have hch : (kmcChain X cs ρ (m - 1)
        (uniformIdx X.length (ρ t),
         minDist2 (X.getD (uniformIdx X.length (ρ t)) []) cs, t + 1)).1 < X.length :=
      kmcChain_fst_lt X cs ρ hn (m - 1) _ (uniformIdx_lt _ _ hn)
    have hsub2 : ∀ c ∈ cs ++ [X.getD (kmcChain X cs ρ (m - 1)
        (uniformIdx X.length (ρ t),
         minDist2 (X.getD (uniformIdx X.length (ρ t)) []) cs, t + 1)).1 []], c ∈ X := by
      intro c hc
      rcases List.mem_append.mp hc with h | h
      · exact hsub c h
      · exact (List.mem_singleton.mp h) ▸ getD_mem X _ [] hch
    obtain ⟨h1, h2⟩ := ih _ _ hsub2
    rw [kmc2Iter]
    exact ⟨by rw [h1]; simp; omega, h2⟩

/-! ## afkmc2 succeeds whenever its proposal distribution is valid -/

theorem afkChain_some (X : List (List ℚ)) (q : List ℚ) (cs : List (List ℚ))
    (ρ : ℕ → ℚ) (hq1 : q.sum = 1) (hq0 : ∀ v ∈ q, 0 ≤ v)
    (hqlen : q.length = X.length) (hn : 0 < X.length)
    (hρ : ∀ i, 0 ≤ ρ i ∧ ρ i < 1) :
    ∀ s x dx2 t, x < X.length →
      ∃ x2 dv t2, afkChain X q cs ρ s (x, dx2, t) = some (x2, dv, t2) ∧
        x2 < X.length := by
  intro s
  induction s with
  | zero =>
    intro x dx2 t hx
    exact ⟨x, dx2, t, rfl, hx⟩
  | succ s2 ih =>
    intro x dx2 t hx
    have hqne : q ≠ [] := by
      intro h
      rw [h] at hqlen
      simp at hqlen
      omega
    obtain ⟨y, hy, hylt⟩ := choiceP_some q (ρ t) hq1 hq0 hqne (hρ t).2
    rw [hqlen] at hylt
    simp only [afkChain, hy]
    split
    · exact ih y _ _ hylt
    · exact ih x dx2 _ hx

theorem afkIter_ok (X : List (List ℚ)) (q : List ℚ) (ρ : ℕ → ℚ) (m : ℕ)
    (hq1 : q.sum = 1) (hq0 : ∀ v ∈ q, 0 ≤ v) (hqlen : q.length = X.length)
    (hn : 0 < X.length) (hρ : ∀ i, 0 ≤ ρ i ∧ ρ i < 1) :
    ∀ fuel cs t, (∀ c ∈ cs, c ∈ X) →
      ∃ out, afkIter X q ρ m fuel cs t = some out ∧
        out.length = cs.length + fuel ∧ ∀ c ∈ out, c ∈ X := by
  intro fuel
  induction fuel with
  | zero =>
    intro cs t h
    exact ⟨cs, rfl, by simp, h⟩
  | succ f ih =>
    intro cs t hsub
    have hqne : q ≠ [] := by
      intro h
      rw [h] at hqlen
      simp at hqlen
      omega
    obtain ⟨x, hxeq, hxlt⟩ := choiceP_some q (ρ t) hq1 hq0 hqne (hρ t).2
    rw [hqlen] at hxlt
    obtain ⟨x2, dv, t2, hch, hx2⟩ :=
      afkChain_some X q cs ρ hq1 hq0 hqlen hn hρ (m - 1) x
        (minDist2 (X.getD x []) cs) (t + 1) hxlt
    obtain ⟨out, hout, hlen, hmem⟩ :=
      ih (cs ++ [X.getD x2 []]) t2
        (by
          intro c hc
          rcases List.mem_append.mp hc with h | h
          · exact hsub c h
          · exact (List.mem_singleton.mp h) ▸ getD_mem X _ [] hx2)
    refine ⟨out, ?_, by simp at hlen; omega, hmem⟩
    simp only [afkIter, hxeq, hch]
    exact hout

/-! ## The memo buffer invariant of afkmc2_mem

A buffer is sound when every cell is either zero (read as unset) or holds
the exact squared distance of its point to its already-chosen center.  A
zero-initialized buffer is sound; garbage from np.empty need not be. -/

def SOK (X : List (List ℚ)) (cs : List (List ℚ)) (sto : Store) : Prop :=
  ∀ i j, sto i j = 0 ∨
    (j < cs.length ∧ sto i j = dist2 (X.getD i []) (cs.getD j []))

theorem SOK_zero (X : List (List ℚ)) (cs : List (List ℚ)) :
    SOK X cs (fun _ _ => 0) := fun _ _ => Or.inl rfl

theorem SOK_append (X : List (List ℚ)) (cs : List (List ℚ)) (c : List ℚ)
    (sto : Store) (h : SOK X cs sto) : SOK X (cs ++ [c]) sto := by
  intro i j
  rcases h i j with h0 | ⟨hj, he⟩
  · exact Or.inl h0
  · refine Or.inr ⟨?_, ?_⟩
    · simp only [List.length_append, List.length_singleton]
      omega
    · rw [he, getD_append_left _ _ _ _ hj]

theorem distanceM_fst (X : List (List ℚ)) (cs : List (List ℚ)) (sto : Store)
    (i j : ℕ) (h : SOK X cs sto) :
    (distanceM X cs sto i j).1 = dist2 (X.getD i []) (cs.getD j []) := by
  rw [distanceM]
  split
  · rfl
  · next hz =>
    rcases h i j with h0 | ⟨_, he⟩
    · exact absurd h0 hz
    · exact he

theorem distanceM_SOK (X : List (List ℚ)) (cs : List (List ℚ)) (sto : Store)
    (i j : ℕ) (h : SOK X cs sto) (hj : j < cs.length) :
    SOK X cs (distanceM X cs sto i j).2 := by
  rw [distanceM]
  split
  · intro a b
    by_cases hab : a = i ∧ b = j
    · obtain ⟨rfl, rfl⟩ := hab
      refine Or.inr ⟨hj, ?_⟩
      simp
    · simpa [hab] using h a b
  · exact h

theorem minDistM_fold (X : List (List ℚ)) (cs : List (List ℚ)) (x : ℕ) :
    ∀ (js : List ℕ) (acc0 : List ℚ) (sto : Store), SOK X cs sto →
      (∀ j ∈ js, j < cs.length) →
      (js.foldl (dmStep X cs x) (acc0, sto)).1
        = (js.map (fun j => dist2 (X.getD x []) (cs.getD j []))).reverse ++ acc0 ∧
      SOK X cs (js.foldl (dmStep X cs x) (acc0, sto)).2 := by
  intro js
  induction js with
  | nil =>
    intro acc0 sto h _
    exact ⟨by simp, h⟩
  | cons j js2 ih =>
    intro acc0 sto h hjs
    have hj : j < cs.length := hjs j (by simp)
    have hfst := distanceM_fst X cs sto x j h
    have hsok := distanceM_SOK X cs sto x j h hj
    obtain ⟨ih1, ih2⟩ :=
      ih ((distanceM X cs sto x j).1 :: acc0) (distanceM X cs sto x j).2 hsok
        (fun j2 hj2 => hjs j2 (by simp [hj2]))
    have hstep : dmStep X cs x (acc0, sto) j =
        ((distanceM X cs sto x j).1 :: acc0, (distanceM X cs sto x j).2) := rfl
    constructor
    · rw [List.foldl_cons, hstep, ih1, hfst]
      simp
    · rw [List.foldl_cons, hstep]
      exact ih2

theorem minDistM_spec (X : List (List ℚ)) (cs : List (List ℚ)) (sto : Store)
    (x : ℕ) (h : SOK X cs sto) :
    (minDistM X cs sto x).1 = minDist2 (X.getD x []) cs ∧
    SOK X cs (minDistM X cs sto x).2 := by
  obtain ⟨h1, h2⟩ :=
    minDistM_fold X cs x (List.range cs.length) [] sto h
      (fun j hj => List.mem_range.mp hj)
  constructor
  · rw [minDistM]
    simp only [h1]
    rw [List.append_nil, List.reverse_reverse]
    rw [range_map_getD cs (fun c => dist2 (X.getD x []) c) []]
    rfl
  · rw [minDistM]
    simpa using h2

theorem d2M_fold (X : List (List ℚ)) (c0 : List ℚ) :
    ∀ (is : List ℕ) (acc0 : List ℚ) (sto : Store), SOK X [c0] sto →
      (is.foldl (d2Step X c0) (acc0, sto)).1
        = (is.map (fun i => dist2 (X.getD i []) c0)).reverse ++ acc0 ∧
      SOK X [c0] (is.foldl (d2Step X c0) (acc0, sto)).2 := by
  intro is
  induction is with
  | nil =>
    intro acc0 sto h
    exact ⟨by simp, h⟩
  | cons i is2 ih =>
    intro acc0 sto h
    have hfst := distanceM_fst X [c0] sto i 0 h
    have hsok := distanceM_SOK X [c0] sto i 0 h (by simp)
    obtain ⟨ih1, ih2⟩ :=
      ih ((distanceM X [c0] sto i 0).1 :: acc0) (distanceM X [c0] sto i 0).2 hsok
    have hstep : d2Step X c0 (acc0, sto) i =
        ((distanceM X [c0] sto i 0).1 :: acc0, (distanceM X [c0] sto i 0).2) := rfl
    constructor
    · rw [List.foldl_cons, hstep, ih1, hfst]
      simp
    · rw [List.foldl_cons, hstep]
      exact ih2

theorem d2M_spec (X : List (List ℚ)) (c0 : List ℚ) (sto : Store)
    (h : SOK X [c0] sto) :
    (d2M X c0 sto).1 = X.map (fun x => dist2 x c0) ∧
    SOK X [c0] (d2M X c0 sto).2 := by
  obtain ⟨h1, h2⟩ := d2M_fold X c0 (List.range X.length) [] sto h
  constructor
  · rw [d2M]
    simp only [h1]
    rw [List.append_nil, List.reverse_reverse]
    exact range_map_getD X (fun x => dist2 x c0) []
  · rw [d2M]
    simpa using h2

/-! ## memChain and memIter agree with afkChain and afkIter on sound buffers -/

theorem memChain_proj (X : List (List ℚ)) (q : List ℚ) (cs : List (List ℚ))
    (ρ : ℕ → ℚ) :
    ∀ (s x : ℕ) (dx2 : ℚ) (t : ℕ) (sto : Store), SOK X cs sto →
      (memChain X q cs ρ s (x, dx2, t, sto)).map
        (fun st => (st.1, st.2.1, st.2.2.1)) = afkChain X q cs ρ s (x, dx2, t) := by
  intro s
  induction s with
  | zero =>
    intro x dx2 t sto _
    rfl
  | succ s2 ih =>
    intro x dx2 t sto h
    cases hcp : choiceP q (ρ t) with
    | none => simp only [memChain, afkChain, hcp]; rfl
    | some y =>
      obtain ⟨hmd1, hmd2⟩ := minDistM_spec X cs sto y h
      simp only [memChain, afkChain, hcp, hmd1]
      split
      · exact ih y _ _ _ hmd2
      · exact ih x dx2 _ _ hmd2

theorem memChain_SOK (X : List (List ℚ)) (q : List ℚ) (cs : List (List ℚ))
    (ρ : ℕ → ℚ) :
    ∀ (s x : ℕ) (dx2 : ℚ) (t : ℕ) (sto : Store), SOK X cs sto →
      ∀ st, memChain X q cs ρ s (x, dx2, t, sto) = some st →
        SOK X cs st.2.2.2 := by
  intro s
  induction s with
  | zero =>
    intro x dx2 t sto h st hst
    injection hst with hst
    rw [← hst]
    exact h
  | succ s2 ih =>
    intro x dx2 t sto h st hst
    cases hcp : choiceP q (ρ t) with
    | none =>
      simp only [memChain, hcp] at hst
      exact Option.noConfusion hst
    | some y =>
      obtain ⟨_, hmd2⟩ := minDistM_spec X cs sto y h
      simp only [memChain, hcp] at hst
      split at hst
      · exact ih y _ _ _ hmd2 st hst
      · exact ih x dx2 _ _ hmd2 st hst

theorem memIter_eq (X : List (List ℚ)) (q : List ℚ) (ρ : ℕ → ℚ) (m : ℕ) :
    ∀ (fuel : ℕ) (cs : List (List ℚ)) (t : ℕ) (sto : Store), SOK X cs sto →
      memIter X q ρ m fuel cs t sto = afkIter X q ρ m fuel cs t := by
  intro fuel
  induction fuel with
  | zero => intro cs t sto _; rfl
  | succ f ih =>
    intro cs t sto h
    cases hcp : choiceP q (ρ t) with
    | none => simp only [memIter, afkIter, hcp]
    | some x =>
      obtain ⟨hmd1, hmd2⟩ := minDistM_spec X cs sto x h
      have hproj := memChain_proj X q cs ρ (m - 1) x
        (minDist2 (X.getD x []) cs) (t + 1) (minDistM X cs sto x).2 hmd2
      simp only [memIter, afkIter, hcp]
      rw [hmd1]
      cases hmc : memChain X q cs ρ (m - 1)
          (x, minDist2 (X.getD x []) cs, t + 1, (minDistM X cs sto x).2) with
      | none =>
        rw [hmc] at hproj
        rw [← hproj]
        rfl
      | some st4 =>
        rw [hmc] at hproj
        have hsok4 : SOK X cs st4.2.2.2 :=
          memChain_SOK X q cs ρ (m - 1) x (minDist2 (X.getD x []) cs) (t + 1)
            (minDistM X cs sto x).2 hmd2 st4 hmc
        rw [← hproj]
        exact ih (cs ++ [X.getD st4.1 []]) st4.2.2.1 st4.2.2.2
          (SOK_append X cs _ _ hsok4)

/-- Helper: with a zero-initialized memo buffer, afkmc2_mem computes exactly
afkmc2. -/
theorem memZeroEq (X : List (List ℚ)) (k m : ℕ) (ρ : ℕ → ℚ) :
    afkmc2_mem X k m ρ (fun _ _ => 0) = afkmc2 X k m ρ := by
  rw [afkmc2_mem, afkmc2]
  split
  · rfl
  · obtain ⟨hd1, hd2⟩ :=
      d2M_spec X (X.getD (uniformIdx X.length (ρ 0)) []) (fun _ _ => 0)
        (SOK_zero X _)
    rw [hd1]
    exact memIter_eq X _ ρ m (k - 1) _ 1 _ hd2

/-! ## Claim theorems -/

/-- C4 (amended): for every dataset and first center with a nonzero total
squared distance, the proposal distribution built by afkmc2 has one entry
per point given by q(x) = d2(x) / (2 Σd2) + 1 / (2n), sums to 1, and every
entry is strictly positive.  (As stated over every non-empty dataset the
claim fails: see the counterexample with all points equal to the first
center, where Σd2 = 0 and q does not sum to 1.) -/
theorem propQ_valid (X : List (List ℚ)) (c0 : List ℚ)
    (hS : 0 < (X.map (fun x => dist2 x c0)).sum) :
    (propQ X c0).length = X.length ∧
    (∀ i, i < X.length →
      (propQ X c0).getD i 0 =
        dist2 (X.getD i []) c0 / (2 * (X.map (fun x => dist2 x c0)).sum) +
          1 / (2 * (X.length : ℚ))) ∧
    (propQ X c0).sum = 1 ∧
    ∀ v ∈ propQ X c0, 0 < v := by
  refine ⟨propQ_length X c0, ?_, propQ_sum X c0 (ne_of_gt hS), propQ_pos X c0 hS⟩
  intro i hi
  rw [propQ, qOf]
  rw [getD_map_of_lt _ _ i _ 0 (by simpa using hi)]
  rw [getD_map_of_lt _ _ i _ [] hi]

/-- Witness for C4 at the dataset [[0],[1]] with first center [0]. -/
theorem propQ_valid_witness :
    0 < (([[0], [1]] : List (List ℚ)).map (fun x => dist2 x [0])).sum ∧
    (propQ [[0], [1]] [0]).sum = 1 ∧ ∀ v ∈ propQ [[0], [1]] [0], 0 < v :=
  ⟨by with_unfolding_all decide,
   (propQ_valid [[0], [1]] [0] (by with_unfolding_all decide)).2.2.1,
   (propQ_valid [[0], [1]] [0] (by with_unfolding_all decide)).2.2.2⟩

/-- C4 counterexample: on the non-empty dataset [[0]] the only possible
first center is [0], the distance vector sums to zero, and the proposal
distribution does not sum to 1 (numpy produces nan entries there). -/
theorem propQ_degenerate_not_sum_one : (propQ [[0]] [0]).sum ≠ 1 := by with_unfolding_all decide

/-- C7: in kmpp, each center after the first is chosen by inverse-CDF
sampling: when the weighted pick returns index i for draw r, the selection
round appends the point at i, the cumulative normalized probability at i
meets or exceeds r, and every earlier index has cumulative probability
strictly below r, so among ties the earliest dataset index wins. -/
theorem kmpp_inverse_cdf_least (X : List (List ℚ)) (cs : List (List ℚ))
    (ρ : ℕ → ℚ) (fuel t i : ℕ)
    (h : kmppPick (X.map (fun p => minDist2 p cs)) (ρ t) = some i) :
    kmppIter X ρ (fuel + 1) cs t = kmppIter X ρ fuel (cs ++ [X.getD i []]) (t + 1) ∧
    ρ t ≤ (cumsum ((X.map (fun p => minDist2 p cs)).map
        (fun v => v / (X.map (fun p => minDist2 p cs)).sum))).getD i 0 ∧
    ∀ j, j < i →
      (cumsum ((X.map (fun p => minDist2 p cs)).map
        (fun v => v / (X.map (fun p => minDist2 p cs)).sum))).getD j 0 < ρ t := by
  have hnz : (X.map (fun p => minDist2 p cs)).sum ≠ 0 := by
    intro h0
    rw [kmppPick, if_pos h0] at h
    exact Option.noConfusion h
  rw [kmppPick, if_neg hnz] at h
  obtain ⟨h1, h2⟩ := firstIdxGE_spec _ _ _ h
  refine ⟨?_, h1, h2⟩
  simp only [kmppIter, kmppPick, if_neg hnz, h]

/-- Witness for C7 on the dataset [[0],[1]] with centers [[0]]. -/
theorem kmpp_inverse_cdf_least_witness :
    kmppIter [[0], [1]] (fun _ => 0) (0 + 1) [[0]] 1 =
      kmppIter [[0], [1]] (fun _ => 0) 0
        ([[0]] ++ [([[0], [1]] : List (List ℚ)).getD 0 []]) (1 + 1) ∧
    (fun _ => (0 : ℚ)) 1 ≤
      (cumsum ((([[0], [1]] : List (List ℚ)).map (fun p => minDist2 p [[0]])).map
        (fun v => v /
          (([[0], [1]] : List (List ℚ)).map (fun p => minDist2 p [[0]])).sum))).getD 0 0 ∧
    ∀ j, j < 0 →
      (cumsum ((([[0], [1]] : List (List ℚ)).map (fun p => minDist2 p [[0]])).map
        (fun v => v /
          (([[0], [1]] : List (List ℚ)).map (fun p => minDist2 p [[0]])).sum))).getD j 0 <
        (fun _ => (0 : ℚ)) 1 :=
  kmpp_inverse_cdf_least [[0], [1]] [[0]] (fun _ => 0) 0 1 0 (by with_unfolding_all decide)

/-- C5: one inner chain step of afkmc2 draws y from q (the candidate that
choiceP returns), computes its minimum squared distance to the chosen
centers, and moves there exactly when dy2 * q(x) / (dx2 * q(y)) exceeds the
fresh uniform draw; otherwise the state is unchanged (the acceptance
probability is min(1, ratio) since the draw is uniform on [0,1)). -/
theorem afkmc2_step_acceptance (X : List (List ℚ)) (q : List ℚ)
    (cs : List (List ℚ)) (ρ : ℕ → ℚ) (s x : ℕ) (dx2 : ℚ) (t y : ℕ)
    (hy : choiceP q (ρ t) = some y)
    (hden : 0 < dx2 * q.getD y 0) :
    afkChain X q cs ρ (s + 1) (x, dx2, t) =
      afkChain X q cs ρ s
        (if minDist2 (X.getD y []) cs * q.getD x 0 / (dx2 * q.getD y 0) > ρ (t + 1)
         then (y, minDist2 (X.getD y []) cs, t + 2)
         else (x, dx2, t + 2)) := by
  simp only [afkChain, hy]
  congr 1
  rw [divGTu, if_neg (ne_of_gt hden)]
  simp [gt_iff_lt]

/-- Witness for C5 with q = [1/4, 3/4] on the dataset [[0],[1]]. -/
theorem afkmc2_step_acceptance_witness :
    afkChain [[0], [1]] [1/4, 3/4] [[0]] (fun _ => 0) (0 + 1) (1, 1, 1) =
      afkChain [[0], [1]] [1/4, 3/4] [[0]] (fun _ => 0) 0
        (if minDist2 (([[0], [1]] : List (List ℚ)).getD 0 []) [[0]] *
              ([1/4, 3/4] : List ℚ).getD 1 0 /
              (1 * ([1/4, 3/4] : List ℚ).getD 0 0) > (fun _ => (0 : ℚ)) (1 + 1)
         then (0, minDist2 (([[0], [1]] : List (List ℚ)).getD 0 []) [[0]], 1 + 2)
         else (1, 1, 1 + 2)) :=
  afkmc2_step_acceptance [[0], [1]] [1/4, 3/4] [[0]] (fun _ => 0) 0 1 1 1 0
    (by with_unfolding_all decide) (by with_unfolding_all decide)

/-- C6: in kmc2, a chain round seeds the chain at a uniformly drawn index
with its minimum squared distance and runs exactly m - 1 steps (each step
consumes exactly two draws, one for the candidate and one for the
acceptance test); a step moves to the uniformly drawn candidate y exactly
when dy2 / dx2 exceeds the fresh uniform draw; after the steps the current
candidate is appended as the next center. -/
theorem kmc2_chain_spec (X cs : List (List ℚ)) (ρ : ℕ → ℚ) (s x : ℕ)
    (dx2 : ℚ) (t : ℕ) (hdx : 0 < dx2) :
    (kmcChain X cs ρ (s + 1) (x, dx2, t) =
      kmcChain X cs ρ s
        (if minDist2 (X.getD (uniformIdx X.length (ρ t)) []) cs / dx2 > ρ (t + 1)
         then (uniformIdx X.length (ρ t),
               minDist2 (X.getD (uniformIdx X.length (ρ t)) []) cs, t + 2)
         else (x, dx2, t + 2))) ∧
    (∀ s2 (st : ℕ × ℚ × ℕ), (kmcChain X cs ρ s2 st).2.2 = st.2.2 + 2 * s2) ∧
    (∀ m fuel (cs2 : List (List ℚ)) t2, kmc2Iter X ρ m (fuel + 1) cs2 t2 =
      kmc2Iter X ρ m fuel
        (cs2 ++ [X.getD (kmcChain X cs2 ρ (m - 1)
          (uniformIdx X.length (ρ t2),
           minDist2 (X.getD (uniformIdx X.length (ρ t2)) []) cs2, t2 + 1)).1 []])
        (kmcChain X cs2 ρ (m - 1)
          (uniformIdx X.length (ρ t2),
           minDist2 (X.getD (uniformIdx X.length (ρ t2)) []) cs2, t2 + 1)).2.2) := by
  refine ⟨?_, ?_, ?_⟩
  · rw [kmcChain]
    congr 1
    rw [divGTu, if_neg (ne_of_gt hdx)]
    simp [gt_iff_lt]
  · intro s2
    induction s2 with
    | zero => intro st; simp [kmcChain]
    | succ s3 ih =>
      intro st
      obtain ⟨a, b, c⟩ := st
      rw [kmcChain]
      split
      · rw [ih]; simp; ring
      · rw [ih]; simp; ring
  · intro m fuel cs2 t2
    rfl

/-- Witness for C6 on the dataset [[0],[1]]. -/
theorem kmc2_chain_spec_witness :
    (kmcChain [[0], [1]] [[0]] (fun _ => 0) (0 + 1) (1, 1, 1) =
      kmcChain [[0], [1]] [[0]] (fun _ => 0) 0
        (if minDist2 (([[0], [1]] : List (List ℚ)).getD
              (uniformIdx ([[0], [1]] : List (List ℚ)).length ((fun _ => (0:ℚ)) 1)) [])
              [[0]] / 1 > (fun _ => (0 : ℚ)) (1 + 1)
         then (uniformIdx ([[0], [1]] : List (List ℚ)).length ((fun _ => (0:ℚ)) 1),
               minDist2 (([[0], [1]] : List (List ℚ)).getD
                 (uniformIdx ([[0], [1]] : List (List ℚ)).length ((fun _ => (0:ℚ)) 1)) [])
                 [[0]], 1 + 2)
         else (1, 1, 1 + 2))) ∧
    (∀ s2 (st : ℕ × ℚ × ℕ),
      (kmcChain [[0], [1]] [[0]] (fun _ => 0) s2 st).2.2 = st.2.2 + 2 * s2) ∧
    (∀ m fuel (cs2 : List (List ℚ)) t2,
      kmc2Iter [[0], [1]] (fun _ => 0) m (fuel + 1) cs2 t2 =
      kmc2Iter [[0], [1]] (fun _ => 0) m fuel
        (cs2 ++ [([[0], [1]] : List (List ℚ)).getD
          (kmcChain [[0], [1]] cs2 (fun _ => 0) (m - 1)
            (uniformIdx ([[0], [1]] : List (List ℚ)).length ((fun _ => (0:ℚ)) t2),
             minDist2 (([[0], [1]] : List (List ℚ)).getD
               (uniformIdx ([[0], [1]] : List (List ℚ)).length ((fun _ => (0:ℚ)) t2)) [])
               cs2, t2 + 1)).1 []])
        (kmcChain [[0], [1]] cs2 (fun _ => 0) (m - 1)
          (uniformIdx ([[0], [1]] : List (List ℚ)).length ((fun _ => (0:ℚ)) t2),
           minDist2 (([[0], [1]] : List (List ℚ)).getD
             (uniformIdx ([[0], [1]] : List (List ℚ)).length ((fun _ => (0:ℚ)) t2)) [])
             cs2, t2 + 1)).2.2) :=
  kmc2_chain_spec [[0], [1]] [[0]] (fun _ => 0) 0 1 1 1 (by with_unfolding_all decide)

/-- C1 (amended): for every valid input whose dataset holds at least k
distinct points, kmpp, kmc2 and afkmc2 return exactly k centers, each a
vector of dimension d, each equal to some point of the dataset; so does
afkmc2_mem provided its uninitialized memo buffer happens to be
zero-filled.  (As stated over all valid inputs the claim fails: on a
dataset of identical points kmpp aborts, see the counterexample.) -/
theorem seeding_returns_k_centers (X : List (List ℚ)) (k m d : ℕ) (ρ : ℕ → ℚ)
    (hk : 1 ≤ k) (hm : 1 ≤ m) (hcard : k ≤ X.toFinset.card)
    (hd : ∀ p ∈ X, p.length = d) (hρ : ∀ i, 0 ≤ ρ i ∧ ρ i < 1) :
    (∃ cs, kmpp X k ρ = some cs ∧ cs.length = k ∧ ∀ c ∈ cs, c ∈ X ∧ c.length = d) ∧
    (∃ cs, kmc2 X k m ρ = some cs ∧ cs.length = k ∧ ∀ c ∈ cs, c ∈ X ∧ c.length = d) ∧
    (∃ cs, afkmc2 X k m ρ = some cs ∧ cs.length = k ∧ ∀ c ∈ cs, c ∈ X ∧ c.length = d) ∧
    (∃ cs, afkmc2_mem X k m ρ (fun _ _ => 0) = some cs ∧ cs.length = k ∧
      ∀ c ∈ cs, c ∈ X ∧ c.length = d) := by
  have hcl : X.toFinset.card ≤ X.length := X.toFinset_card_le
  have hn : 0 < X.length := by omega
  have hguard : ¬(X.length = 0 ∨ k = 0) := by omega
  have hc0 : X.getD (uniformIdx X.length (ρ 0)) [] ∈ X :=
    getD_mem X _ [] (uniformIdx_lt _ _ hn)
  have hkmpp : ∃ cs, kmpp X k ρ = some cs ∧ cs.length = k ∧
      ∀ c ∈ cs, c ∈ X ∧ c.length = d := by
    obtain ⟨out, hout, hlen, hmem⟩ :=
      kmppIter_ok X ρ d hd hρ (k - 1) [X.getD (uniformIdx X.length (ρ 0)) []] 1
        (by simp) (by simpa using hc0) (by simp; omega)
    refine ⟨out, ?_, ?_, fun c hc => ⟨hmem c hc, hd c (hmem c hc)⟩⟩
    · rw [kmpp, if_neg hguard]
      exact hout
    · simp at hlen
      omega
  have hkmc2 : ∃ cs, kmc2 X k m ρ = some cs ∧ cs.length = k ∧
      ∀ c ∈ cs, c ∈ X ∧ c.length = d := by
    obtain ⟨hlen, hmem⟩ :=
      kmc2Iter_ok X ρ m hn (k - 1) [X.getD (uniformIdx X.length (ρ 0)) []] 1
        (by simpa using hc0)
    refine ⟨kmc2Iter X ρ m (k - 1) [X.getD (uniformIdx X.length (ρ 0)) []] 1,
      ?_, ?_, fun c hc => ⟨hmem c hc, hd c (hmem c hc)⟩⟩
    · rw [kmc2, if_neg hguard]
    · simp only [List.length_singleton] at hlen
      omega
  have hafk : ∃ cs, afkmc2 X k m ρ = some cs ∧ cs.length = k ∧
      ∀ c ∈ cs, c ∈ X ∧ c.length = d := by
    by_cases hk1 : k = 1
    · subst hk1
      refine ⟨[X.getD (uniformIdx X.length (ρ 0)) []], ?_, by simp, ?_⟩
      · rw [afkmc2, if_neg hguard]
        rfl
      · intro c hc
        have hceq : c = X.getD (uniformIdx X.length (ρ 0)) [] :=
          List.mem_singleton.mp hc
        subst hceq
        exact ⟨hc0, hd _ hc0⟩
    · have hk2 : 2 ≤ k := by omega
      obtain ⟨x, hx, hxne⟩ :=
        exists_ne_of_two_le_card X (X.getD (uniformIdx X.length (ρ 0)) [])
          (le_trans hk2 hcard)
      have hS : 0 < (X.map (fun p =>
          dist2 p (X.getD (uniformIdx X.length (ρ 0)) []))).sum :=
        d2_sum_pos_of_ne X _ d hd hc0 x hx hxne
      obtain ⟨out, hout, hlen, hmem⟩ :=
        afkIter_ok X (propQ X (X.getD (uniformIdx X.length (ρ 0)) [])) ρ m
          (propQ_sum X _ (ne_of_gt hS))
          (fun v hv => le_of_lt (propQ_pos X _ hS v hv))
          (propQ_length X _) hn hρ (k - 1)
          [X.getD (uniformIdx X.length (ρ 0)) []] 1 (by simpa using hc0)
      refine ⟨out, ?_, by simp at hlen; omega,
        fun c hc => ⟨hmem c hc, hd c (hmem c hc)⟩⟩
      rw [afkmc2, if_neg hguard]
      exact hout
  refine ⟨hkmpp, hkmc2, hafk, ?_⟩
  obtain ⟨cs, hcs, h1, h2⟩ := hafk
  exact ⟨cs, by rw [memZeroEq]; exact hcs, h1, h2⟩

/-- Witness for C1 on the dataset [[0],[1]] with k = 2, m = 1, d = 1. -/
theorem seeding_returns_k_centers_witness :
    (∃ cs, kmpp [[0], [1]] 2 (fun _ => 0) = some cs ∧ cs.length = 2 ∧
      ∀ c ∈ cs, c ∈ ([[0], [1]] : List (List ℚ)) ∧ c.length = 1) ∧
    (∃ cs, kmc2 [[0], [1]] 2 1 (fun _ => 0) = some cs ∧ cs.length = 2 ∧
      ∀ c ∈ cs, c ∈ ([[0], [1]] : List (List ℚ)) ∧ c.length = 1) ∧
    (∃ cs, afkmc2 [[0], [1]] 2 1 (fun _ => 0) = some cs ∧ cs.length = 2 ∧
      ∀ c ∈ cs, c ∈ ([[0], [1]] : List (List ℚ)) ∧ c.length = 1) ∧
    (∃ cs, afkmc2_mem [[0], [1]] 2 1 (fun _ => 0) (fun _ _ => 0) = some cs ∧
      cs.length = 2 ∧ ∀ c ∈ cs, c ∈ ([[0], [1]] : List (List ℚ)) ∧ c.length = 1) :=
  seeding_returns_k_centers [[0], [1]] 2 1 1 (fun _ => 0)
    (by norm_num) (by norm_num) (by with_unfolding_all decide)
    (by with_unfolding_all decide) (fun _ => ⟨le_refl 0, by norm_num⟩)

/-- C1 counterexample: the dataset [[0],[0]] with k = 2 is a valid input in
the sense of the claim (n = 2, 1 ≤ k ≤ n), yet kmpp fails instead of
returning two centers: every point coincides with the first center, the
normalization divides zero by zero, and the selection aborts. -/
theorem kmpp_degenerate_none : kmpp [[0], [0]] 2 (fun _ => 0) = none := by
  with_unfolding_all decide

/-- C2: contrary to the claim, the code performs no configuration
validation: with n = 2 and k = 3 > n, kmc2 runs to completion and returns
three centers (with duplicates) instead of failing with a configuration
error before any computation. -/
theorem kmc2_accepts_k_gt_n :
    kmc2 [[0], [1]] 3 1 (fun _ => 0) = some [[0], [0], [0]] := by
  with_unfolding_all decide

/-- C3 counterexample: with identical inputs and an identical stream of
draws, a nonzero garbage cell in the uninitialized np.empty memo buffer is
read as a cached distance, changes the proposal distribution of
afkmc2_mem, and the returned center sequence differs from afkmc2. -/
theorem afkmc2_mem_garbage_diverges :
    afkmc2_mem [[0], [1]] 2 1 (fun t => if t = 0 then 0 else 1/2)
        (fun a b => if a = 0 ∧ b = 0 then 5 else 0) ≠
      afkmc2 [[0], [1]] 2 1 (fun t => if t = 0 then 0 else 1/2) := by
  with_unfolding_all decide

/-- C3 (amended): provided the memo buffer starts zero-filled (which
np.empty does not guarantee), afkmc2_mem returns exactly the same center
sequence as afkmc2 for every input and every stream of draws: memoizing
the squared-distance computations changes no returned value. -/
theorem afkmc2_mem_zero_init_eq (X : List (List ℚ)) (k m : ℕ) (ρ : ℕ → ℚ) :
    afkmc2_mem X k m ρ (fun _ _ => 0) = afkmc2 X k m ρ :=
  memZeroEq X k m ρ

/-- C8: no zero-sum detection exists in the code: on a dataset of two
identical points every distance to the chosen center is zero, yet kmc2
evaluates its acceptance ratio 0/0 (nan on floats, never above the draw)
and silently returns duplicate centers instead of failing. -/
theorem kmc2_zero_sum_silent :
    kmc2 [[0], [0]] 2 2 (fun _ => 0) = some [[0], [0]] := by
  with_unfolding_all decide

/-- C9: the memo buffer of afkmc2_mem comes from np.empty and is
uninitialized; if cell (0, 0) holds the garbage value 5, distance(0, 0)
returns 5 although the exact squared distance between point 0 and center 0
is 0, violating the documented exactness of distance. -/
theorem distanceM_garbage_wrong :
    (distanceM [[0], [1]] [[0]] (fun a b => if a = 0 ∧ b = 0 then 5 else 0) 0 0).1 = 5 ∧
    dist2 [(0 : ℚ)] [0] = 0 := by with_unfolding_all decide

end AFK
